import Mathlib

/-
Verification of the wallet credit-scoring pipeline (src/scorer.py).

The pipeline is embedded shallowly:
  - raw transaction records become `RawEvent` (numeric fields carry the
    result of pandas parsing: `none` models a value coerced to NaN/NaT);
  - the normalized dataframe rows (script steps 3-6) become `Event`;
  - the per-wallet aggregates, ratios and shaped features (steps 1-5 and
    the final step) become functions of an event list and a wallet id;
  - sklearn MinMaxScaler column scaling, the fixed weight vector, and the
    final rounded score are modelled over an arbitrary linear ordered
    field with a floor, instantiated at the reals for the pipeline.
Money amounts are modelled as rationals (exact arithmetic stands in for
the floating point of the script).
-/

namespace Scorer

/-- A raw transaction record, after pandas field parsing.  `none` in
`amount`, `assetPriceUSD` models `pd.to_numeric(..., errors="coerce")`
producing NaN; `none` in `timestamp` models `pd.to_datetime(...,
errors="coerce")` producing NaT (scorer.py lines 19-26). -/
structure RawEvent where
  userWallet : String
  action : String
  timestamp : Option ℤ
  amount : Option ℚ
  assetSymbol : String
  assetPriceUSD : Option ℚ

/-- A row of the normalized dataframe kept after step 6 of the script:
columns wallet, action, timestamp, asset_symbol, usd_value
(scorer.py line 32). -/
structure Event where
  wallet : String
  action : String
  timestamp : Option ℤ
  asset_symbol : String
  usd_value : Option ℚ

/-- Steps 3-6 of the script: lowercase the action, keep the parsed
timestamp, and compute `usd_value = (amount / 1e6) * asset_price_usd`;
a NaN amount or price propagates to a NaN (here `none`) usd_value
(scorer.py lines 19-32). -/
def normalize (e : RawEvent) : Event where
  wallet := e.userWallet
  action := e.action.toLower
  timestamp := e.timestamp
  asset_symbol := e.assetSymbol
  usd_value :=
    match e.amount, e.assetPriceUSD with
    | some a, some p => some (a / 1000000 * p)
    | _, _ => none

/-- The whole-file normalization (one output row per input row). -/
def normalizeAll (rs : List RawEvent) : List Event := rs.map normalize

/-- scorer.py line 41. -/
def relevant_actions : List String := ["deposit", "borrow", "repay", "redeemunderlying"]

/-- Insertion of a key into a sorted duplicate-free list of keys; models
the sorted unique index that `pandas.groupby` (with its default
`sort=True`) produces for the wallet keys. -/
def insertKey (w : String) : List String → List String
  | [] => [w]
  | x :: xs =>
    if w = x then x :: xs
    else if w < x then w :: x :: xs
    else x :: insertKey w xs

/-- The wallet index of the step-1 pivot table: the distinct wallets
having at least one event with a relevant action, in ascending order
(scorer.py lines 41-50).  Every later merge is a left join on this
index, so it is also the row index of the final summary. -/
def walletKeys (evs : List Event) : List String :=
  ((evs.filter (fun e => e.action ∈ relevant_actions)).map Event.wallet).foldl
    (fun acc w => insertKey w acc) []

/-- Sum of `usd_value` over the events of wallet `w` with action `a`;
NaN values contribute 0 to a pandas groupby sum, and an absent
wallet/action group is filled with 0 by `unstack(fill_value=0)`
(scorer.py lines 45-50). -/
def total_usd (evs : List Event) (a w : String) : ℚ :=
  ((evs.filter (fun e => e.wallet = w ∧ e.action = a)).map
    (fun e => e.usd_value.getD 0)).sum

/-- Column `total_usd_deposited` (scorer.py lines 45-59). -/
def total_usd_deposited (evs : List Event) (w : String) : ℚ :=
  total_usd evs "deposit" w

/-- Column `total_usd_borrowed` (scorer.py lines 45-59). -/
def total_usd_borrowed (evs : List Event) (w : String) : ℚ :=
  total_usd evs "borrow" w

/-- Column `total_usd_repaid` (scorer.py lines 45-59). -/
def total_usd_repaid (evs : List Event) (w : String) : ℚ :=
  total_usd evs "repay" w

/-- Step 2 of the script: `repayment_ratio` (scorer.py lines 68-71). -/
def repayment_ratio (evs : List Event) (w : String) : ℚ :=
  if 0 < total_usd_borrowed evs w
  then total_usd_repaid evs w / total_usd_borrowed evs w
  else 1

/-- Step 2 of the script: `borrow_to_deposit` (scorer.py lines 74-77). -/
def borrow_to_deposit (evs : List Event) (w : String) : ℚ :=
  if 0 < total_usd_deposited evs w
  then total_usd_borrowed evs w / total_usd_deposited evs w
  else 0

/-- Step 3 of the script: count of `liquidationcall` events of the
wallet, with 0 filled in by the left merge for wallets never liquidated
(scorer.py lines 85-94). -/
def num_liquidations (evs : List Event) (w : String) : ℕ :=
  (evs.filter (fun e => e.wallet = w ∧ e.action = "liquidationcall")).length

/-- Step 4 of the script: total number of events of the wallet, over the
full event set (scorer.py line 103). -/
def tx_count (evs : List Event) (w : String) : ℕ :=
  (evs.filter (fun e => e.wallet = w)).length

/-- The calendar-date bucket of an event (`df["timestamp"].dt.date`,
scorer.py line 106): the epoch day of the timestamp; `none` for NaT. -/
def event_date (e : Event) : Option ℤ :=
  e.timestamp.map (fun t => Int.fdiv t 86400)

/-- Step 4 of the script: number of distinct non-null dates of the
wallet's events; `Series.nunique` skips nulls, so events whose
timestamp failed to parse are not counted (scorer.py lines 106-107). -/
def active_days (evs : List Event) (w : String) : ℕ :=
  ((evs.filter (fun e => e.wallet = w)).filterMap event_date).dedup.length

/-- Step 5 of the script: number of distinct asset symbols of the
wallet's events (scorer.py line 119). -/
def asset_diversity (evs : List Event) (w : String) : ℕ :=
  ((evs.filter (fun e => e.wallet = w)).map Event.asset_symbol).dedup.length

/-- Final step: `repayment_ratio` clipped from above at 1
(scorer.py line 131). -/
def repayment_ratio_capped (evs : List Event) (w : String) : ℚ :=
  min (repayment_ratio evs w) 1

/-- Final step: `1.0 - borrow_to_deposit.clip(upper=1.0)`
(scorer.py line 134). -/
def borrow_inverse (evs : List Event) (w : String) : ℚ :=
  1 - min (borrow_to_deposit evs w) 1

/-- Final step: `np.log1p(tx_count)` (scorer.py line 137). -/
noncomputable def log_tx_count (evs : List Event) (w : String) : ℝ :=
  Real.log (1 + (tx_count evs w : ℝ))

/-- Final step: `np.log1p(total_usd_deposited)` (scorer.py line 138). -/
noncomputable def log_deposit (evs : List Event) (w : String) : ℝ :=
  Real.log (1 + (total_usd_deposited evs w : ℝ))

/-- Final step: `asset_diversity.clip(upper=10)` (scorer.py line 141). -/
def asset_diversity_capped (evs : List Event) (w : String) : ℕ :=
  min (asset_diversity evs w) 10

/-- Final step: `-num_liquidations` (scorer.py line 144). -/
def liquidation_penalty (evs : List Event) (w : String) : ℤ :=
  -(num_liquidations evs w : ℤ)

section MinMax

variable {α : Type*} [LinearOrderedField α] [FloorRing α]

/-- Minimum of a column of values (`data_min_` of a fitted
MinMaxScaler); the empty case is a placeholder never reached on a
nonempty population. -/
def minD : List α → α
  | [] => 0
  | [a] => a
  | a :: b :: l => min a (minD (b :: l))

/-- Maximum of a column of values (`data_max_` of a fitted
MinMaxScaler). -/
def maxD : List α → α
  | [] => 0
  | [a] => a
  | a :: b :: l => max a (maxD (b :: l))

/-- One scaled entry of `MinMaxScaler.fit_transform`:
`(v - min) / (max - min)`, where sklearn replaces a zero range
(a constant column) by 1 before dividing (scorer.py lines 157-158). -/
def scaleVal (col : List α) (v : α) : α :=
  (v - minD col) / (if maxD col = minD col then 1 else maxD col - minD col)

/-- The fixed weight vector of scorer.py line 161, indexed in the order
of the `features` list of lines 147-155. -/
def weights : Fin 7 → α :=
  ![0.25, 0.15, 0.10, 0.10, 0.10, 0.10, 0.20]

/-- Rounding half to even of numpy / `Series.round`, on exact values. -/
def roundHE (y : α) : ℤ :=
  if Int.fract y = 1 / 2 then (if Even ⌊y⌋ then ⌊y⌋ else ⌊y⌋ + 1)
  else round y

/-- `Series.round(2)`: round half to even at two decimal places
(scorer.py line 165). -/
def round2 (x : α) : α :=
  (roundHE (x * 100) : ℤ) / 100

/-- The unrounded score of a feature row `r` against the population
`rows`: each of the seven feature columns is min-max scaled over the
population, dotted with the weights, times 1000
(scorer.py lines 157-162). -/
def dotScore (rows : List (Fin 7 → α)) (r : Fin 7 → α) : α :=
  (∑ i : Fin 7, scaleVal (rows.map (fun q => q i)) (r i) * weights i) * 1000

/-- The final `credit_score` of a feature row against a population:
the unrounded score rounded to two decimals (scorer.py lines 162-165). -/
def scoreRows (rows : List (Fin 7 → α)) (r : Fin 7 → α) : α :=
  round2 (dotScore rows r)

/-- A feature row with the liquidation-penalty slot (index 6) set from a
liquidation count, the other six feature values held fixed; used to
state how `credit_score` depends on `num_liquidations` alone. -/
def setLiq (f : Fin 7 → α) (n : ℕ) : Fin 7 → α :=
  Function.update f 6 (-(n : α))

end MinMax

/-- The feature vector of one wallet, in the order of the `features`
list of scorer.py lines 147-155. -/
noncomputable def featVal (evs : List Event) (w : String) : Fin 7 → ℝ :=
  ![(repayment_ratio_capped evs w : ℝ),
    (borrow_inverse evs w : ℝ),
    log_tx_count evs w,
    (active_days evs w : ℝ),
    (asset_diversity_capped evs w : ℝ),
    log_deposit evs w,
    (liquidation_penalty evs w : ℝ)]

/-- The feature matrix handed to `MinMaxScaler.fit_transform`: one row
per wallet of the summary, in index order (scorer.py line 158). -/
noncomputable def featureRows (evs : List Event) : List (Fin 7 → ℝ) :=
  (walletKeys evs).map (featVal evs)

/-- The final `credit_score` column of the summary
(scorer.py lines 157-165). -/
noncomputable def credit_score (evs : List Event) (w : String) : ℝ :=
  scoreRows (featureRows evs) (featVal evs w)

/-- The two-column output table `wallet, credit_score`, one row per
summary wallet in the summary's row order (scorer.py line 173). -/
noncomputable def wallet_scores (evs : List Event) : List (String × ℝ) :=
  (walletKeys evs).map (fun w => (w, credit_score evs w))

/-- Concrete run: a single deposit of 1 USD. -/
def evDeposit : List Event := [⟨"w", "deposit", some 0, "", some 1⟩]

/-- Concrete run: wallet borrowed 2 USD and repaid 1 USD. -/
def evBorrow : List Event :=
  [⟨"w", "borrow", some 0, "", some 2⟩, ⟨"w", "repay", some 0, "", some 1⟩]

/-- Concrete run: a wallet that only ever appears in a liquidation. -/
def evLiqOnly : List Event := [⟨"w", "liquidationcall", some 0, "", some 1⟩]

/-- Concrete run: a single deposit whose timestamp failed to parse. -/
def evNoDate : List Event := [⟨"w", "deposit", none, "", some 1⟩]

/-- Concrete run: a single deposit with a valid timestamp. -/
def evDated : List Event := [⟨"w", "deposit", some 86400, "", some 1⟩]

/-- Concrete raw record whose amount failed numeric parsing. -/
def rawNaN : RawEvent := ⟨"w", "deposit", some 0, none, "", some 1⟩

/-- Concrete run: a deposit of 1 USD and a borrow whose summed usd
value is negative. -/
def evNegBorrow : List Event :=
  [⟨"w", "deposit", none, "", some 1⟩, ⟨"w", "borrow", none, "", some (-1)⟩]

/-- Concrete run: events under the two asset symbols "A" and "". -/
def evTwoSymbols : List Event :=
  [⟨"w", "deposit", none, "A", some 1⟩, ⟨"w", "borrow", none, "", some 1⟩]

/-- The all-zero feature row. -/
def zeroRow : Fin 7 → ℝ := fun _ => 0

/-- A three-wallet population whose rows have identical feature values
except for the liquidation count: 1, 0 and 50000 liquidations. -/
noncomputable def cexPop : List (Fin 7 → ℝ) :=
  [setLiq zeroRow 1, setLiq zeroRow 0, setLiq zeroRow 50000]

section Lemmas

variable {α : Type*} [LinearOrderedField α] [FloorRing α]

theorem weights_apply_0 : (weights : Fin 7 → α) 0 = 0.25 := rfl

theorem weights_apply_1 : (weights : Fin 7 → α) 1 = 0.15 := rfl

theorem weights_apply_2 : (weights : Fin 7 → α) 2 = 0.10 := rfl

theorem weights_apply_3 : (weights : Fin 7 → α) 3 = 0.10 := rfl

theorem weights_apply_4 : (weights : Fin 7 → α) 4 = 0.10 := rfl

theorem weights_apply_5 : (weights : Fin 7 → α) 5 = 0.10 := rfl

theorem weights_apply_6 : (weights : Fin 7 → α) 6 = 0.20 := rfl

theorem weights_nonneg : ∀ i : Fin 7, 0 ≤ (weights : Fin 7 → α) i := by
  intro i
  fin_cases i <;> norm_num [weights]

theorem weights_sum : ∑ i : Fin 7, (weights : Fin 7 → α) i = 1 := by
  rw [Fin.sum_univ_seven, weights_apply_0, weights_apply_1, weights_apply_2,
    weights_apply_3, weights_apply_4, weights_apply_5, weights_apply_6]
  norm_num

theorem minD_cons (a : α) {l : List α} (h : l ≠ []) :
    minD (a :: l) = min a (minD l) := by
  cases l with
  | nil => exact absurd rfl h
  | cons b u => rfl

theorem maxD_cons (a : α) {l : List α} (h : l ≠ []) :
    maxD (a :: l) = max a (maxD l) := by
  cases l with
  | nil => exact absurd rfl h
  | cons b u => rfl

theorem minD_le_of_mem {l : List α} {v : α} (h : v ∈ l) : minD l ≤ v := by
  induction l with
  | nil => cases h
  | cons a t ih =>
    cases t with
    | nil =>
      rcases List.mem_cons.mp h with rfl | h2
      · exact le_of_eq rfl
      · cases h2
    | cons b u =>
      rw [minD_cons a (by simp)]
      rcases List.mem_cons.mp h with rfl | h2
      · exact min_le_left _ _
      · exact le_trans (min_le_right _ _) (ih h2)

theorem le_maxD_of_mem {l : List α} {v : α} (h : v ∈ l) : v ≤ maxD l := by
  induction l with
  | nil => cases h
  | cons a t ih =>
    cases t with
    | nil =>
      rcases List.mem_cons.mp h with rfl | h2
      · exact le_of_eq rfl
      · cases h2
    | cons b u =>
      rw [maxD_cons a (by simp)]
      rcases List.mem_cons.mp h with rfl | h2
      · exact le_max_left _ _
      · exact le_trans (ih h2) (le_max_right _ _)

theorem scaleVal_mem_Icc {col : List α} {v : α} (h : v ∈ col) :
    0 ≤ scaleVal col v ∧ scaleVal col v ≤ 1 := by
  have h1 : minD col ≤ v := minD_le_of_mem h
  have h2 : v ≤ maxD col := le_maxD_of_mem h
  unfold scaleVal
  split
  · next heq =>
    have hv : v = minD col := le_antisymm (heq ▸ h2) h1
    rw [hv]
    norm_num
  · next hne =>
    have hlt : minD col < maxD col := lt_of_le_of_ne (le_trans h1 h2) (Ne.symm hne)
    constructor
    · exact div_nonneg (by linarith) (by linarith)
    · rw [div_le_one (by linarith)]
      linarith

theorem scaleVal_head_mono {S : List α} {p q : α} (hpq : p ≤ q) :
    scaleVal (p :: S) p ≤ scaleVal (q :: S) q := by
  cases S with
  | nil => simp [scaleVal, minD, maxD]
  | cons b u =>
    have hS : (b :: u : List α) ≠ [] := by simp
    by_cases h1 : p ≤ minD (b :: u)
    · have h0 : scaleVal (p :: b :: u) p = 0 := by
        unfold scaleVal
        rw [minD_cons p hS, min_eq_left h1]
        simp
      rw [h0]
      exact (scaleVal_mem_Icc (List.mem_cons_self q (b :: u))).1
    · push_neg at h1
      have hminp : minD (p :: b :: u) = minD (b :: u) := by
        rw [minD_cons p hS, min_eq_right (le_of_lt h1)]
      have hminq : minD (q :: b :: u) = minD (b :: u) := by
        rw [minD_cons q hS, min_eq_right (le_of_lt (lt_of_lt_of_le h1 hpq))]
      by_cases h2 : q ≤ maxD (b :: u)
      · have hmaxp : maxD (p :: b :: u) = maxD (b :: u) := by
          rw [maxD_cons p hS, max_eq_right (le_trans hpq h2)]
        have hmaxq : maxD (q :: b :: u) = maxD (b :: u) := by
          rw [maxD_cons q hS, max_eq_right h2]
        have hlt : minD (b :: u) < maxD (b :: u) := lt_of_lt_of_le h1 (le_trans hpq h2)
        unfold scaleVal
        rw [hminp, hminq, hmaxp, hmaxq, if_neg (ne_of_gt hlt)]
        rw [div_le_div_iff_of_pos_right (by linarith)]
        linarith
      · push_neg at h2
        have hq1 : scaleVal (q :: b :: u) q = 1 := by
          unfold scaleVal
          rw [hminq, maxD_cons q hS, max_eq_left (le_of_lt h2)]
          have hqm : minD (b :: u) < q := lt_of_lt_of_le h1 hpq
          rw [if_neg (ne_of_gt hqm)]
          exact div_self (by linarith)
        rw [hq1]
        exact (scaleVal_mem_Icc (List.mem_cons_self p (b :: u))).2

end Lemmas

theorem mem_insertKey {a w : String} {l : List String} :
    a ∈ insertKey w l ↔ a = w ∨ a ∈ l := by
  induction l with
  | nil => simp [insertKey]
  | cons x xs ih =>
    simp only [insertKey]
    split
    · next h => subst h; simp [List.mem_cons]
    · split
      · simp [List.mem_cons]
      · simp [List.mem_cons, ih]; tauto

theorem pairwise_insertKey {w : String} {l : List String}
    (h : l.Pairwise (· < ·)) : (insertKey w l).Pairwise (· < ·) := by
  induction l with
  | nil => simp [insertKey]
  | cons x xs ih =>
    rw [List.pairwise_cons] at h
    simp only [insertKey]
    by_cases heq : w = x
    · rw [if_pos heq]
      subst heq
      exact List.pairwise_cons.mpr ⟨h.1, h.2⟩
    · rw [if_neg heq]
      by_cases hlt : w < x
      · rw [if_pos hlt]
        refine List.pairwise_cons.mpr ⟨?_, List.pairwise_cons.mpr ⟨h.1, h.2⟩⟩
        intro y hy
        rcases List.mem_cons.mp hy with rfl | hy2
        · exact hlt
        · exact lt_trans hlt (h.1 y hy2)
      · rw [if_neg hlt]
        have hxw : x < w := by
          rcases lt_trichotomy w x with h3 | h3 | h3
          · exact absurd h3 hlt
          · exact absurd h3 heq
          · exact h3
        refine List.pairwise_cons.mpr ⟨?_, ih h.2⟩
        intro y hy
        rcases mem_insertKey.mp hy with rfl | hy2
        · exact hxw
        · exact h.1 y hy2

theorem mem_foldl_insertKey {a : String} {ws : List String} {acc : List String} :
    a ∈ ws.foldl (fun acc w => insertKey w acc) acc ↔ a ∈ acc ∨ a ∈ ws := by
  induction ws generalizing acc with
  | nil => simp
  | cons x xs ih =>
    rw [List.foldl_cons, ih, mem_insertKey]
    simp [List.mem_cons]
    tauto

theorem pairwise_foldl_insertKey {ws : List String} {acc : List String}
    (h : acc.Pairwise (· < ·)) :
    (ws.foldl (fun acc w => insertKey w acc) acc).Pairwise (· < ·) := by
  induction ws generalizing acc with
  | nil => exact h
  | cons x xs ih => exact ih (pairwise_insertKey h)

theorem mem_walletKeys {evs : List Event} {w : String} :
    w ∈ walletKeys evs ↔ ∃ e ∈ evs, e.wallet = w ∧ e.action ∈ relevant_actions := by
  unfold walletKeys
  rw [mem_foldl_insertKey]
  simp only [List.not_mem_nil, false_or, List.mem_map, List.mem_filter]
  constructor
  · rintro ⟨e, ⟨he, ha⟩, rfl⟩
    exact ⟨e, he, rfl, by simpa using ha⟩
  · rintro ⟨e, he, rfl, ha⟩
    exact ⟨e, ⟨he, by simpa using ha⟩, rfl⟩

section RoundLemmas

variable {α : Type*} [LinearOrderedField α] [FloorRing α]

theorem floor_le_roundHE (y : α) : ⌊y⌋ ≤ roundHE y := by
  unfold roundHE
  split
  · split
    · exact le_refl _
    · exact le_of_lt (lt_add_one _)
  · rw [round_eq]
    exact Int.floor_mono (by linarith)

theorem roundHE_le_floor_add_one (y : α) : roundHE y ≤ ⌊y⌋ + 1 := by
  unfold roundHE
  split
  · split
    · exact le_of_lt (lt_add_one _)
    · exact le_refl _
  · rw [round_eq]
    have h1 : y + 1 / 2 < ((⌊y⌋ + 2 : ℤ) : α) := by
      push_cast
      have h2 := Int.lt_floor_add_one y
      linarith
    have h3 := Int.floor_lt.mpr h1
    omega

theorem le_roundHE_of_int_le {A : ℤ} {y : α} (h : (A : α) ≤ y) : A ≤ roundHE y :=
  le_trans (Int.le_floor.mpr h) (floor_le_roundHE y)

theorem roundHE_le_of_le_int {B : ℤ} {y : α} (h : y ≤ (B : α)) : roundHE y ≤ B := by
  by_cases hfb : ⌊y⌋ = B
  · have hyB : y = (B : α) := le_antisymm h (by rw [← hfb]; exact Int.floor_le y)
    rw [hyB]
    unfold roundHE
    rw [Int.fract_intCast, if_neg (by norm_num : ¬((0 : α) = 1 / 2))]
    exact le_of_eq (round_intCast B)
  · have hfle : ⌊y⌋ ≤ B := by
      have h2 := Int.floor_mono h
      rwa [Int.floor_intCast] at h2
    have h3 := roundHE_le_floor_add_one y
    omega

theorem roundHE_mono {y z : α} (h : y ≤ z) : roundHE y ≤ roundHE z := by
  rcases lt_or_le ⌊y⌋ ⌊z⌋ with hf | hf
  · have h1 := roundHE_le_floor_add_one y
    have h2 := floor_le_roundHE z
    omega
  · have hfe : ⌊y⌋ = ⌊z⌋ := le_antisymm (Int.floor_mono h) hf
    have hfr : Int.fract y ≤ Int.fract z := by
      unfold Int.fract
      rw [hfe]
      linarith
    by_cases hy : Int.fract y = 1 / 2 <;> by_cases hz : Int.fract z = 1 / 2
    · have hyz : y = z := by
        have e1 := Int.floor_add_fract y
        have e2 := Int.floor_add_fract z
        rw [hy] at e1
        rw [hz] at e2
        rw [hfe] at e1
        linarith
      rw [hyz]
    · have hgt : 1 / 2 < Int.fract z := lt_of_le_of_ne (hy ▸ hfr) (Ne.symm hz)
      unfold roundHE
      rw [if_pos hy, if_neg hz, round_eq]
      have hz1 : (⌊z⌋ + 1 : ℤ) ≤ ⌊z + 1 / 2⌋ := by
        apply Int.le_floor.mpr
        push_cast
        have e2 := Int.floor_add_fract z
        linarith
      set r : ℤ := if Even ⌊y⌋ then ⌊y⌋ else ⌊y⌋ + 1 with hr
      have hrle : r ≤ ⌊y⌋ + 1 := by rw [hr]; split <;> omega
      omega
    · have hlt2 : Int.fract y < 1 / 2 := lt_of_le_of_ne (hz ▸ hfr) hy
      unfold roundHE
      rw [if_neg hy, if_pos hz, round_eq]
      have hy1 : ⌊y + 1 / 2⌋ ≤ ⌊y⌋ := by
        have e1 := Int.floor_add_fract y
        have h2 : y + 1 / 2 < ((⌊y⌋ + 1 : ℤ) : α) := by push_cast; linarith
        have h3 := Int.floor_lt.mpr h2
        omega
      set r : ℤ := if Even ⌊z⌋ then ⌊z⌋ else ⌊z⌋ + 1 with hr
      have hrge : ⌊z⌋ ≤ r := by rw [hr]; split <;> omega
      omega
    · unfold roundHE
      rw [if_neg hy, if_neg hz, round_eq, round_eq]
      exact Int.floor_mono (by linarith)

theorem round2_mono {x y : α} (h : x ≤ y) : round2 x ≤ round2 y := by
  unfold round2
  have h2 : ((roundHE (x * 100) : ℤ) : α) ≤ ((roundHE (y * 100) : ℤ) : α) := by
    exact_mod_cast roundHE_mono (mul_le_mul_of_nonneg_right h (by norm_num))
  gcongr

theorem round2_bounds {x : α} (h0 : 0 ≤ x) (h1 : x ≤ 1000) :
    0 ≤ round2 x ∧ round2 x ≤ 1000 := by
  have hl : (0 : ℤ) ≤ roundHE (x * 100) := le_roundHE_of_int_le (by push_cast; linarith)
  have hu : roundHE (x * 100) ≤ (100000 : ℤ) := roundHE_le_of_le_int (by push_cast; linarith)
  unfold round2
  constructor
  · apply div_nonneg _ (by norm_num)
    exact_mod_cast hl
  · rw [div_le_iff₀ (by norm_num : (0 : α) < 100)]
    calc ((roundHE (x * 100) : ℤ) : α) ≤ ((100000 : ℤ) : α) := by exact_mod_cast hu
    _ = 1000 * 100 := by norm_num

theorem dotScore_bounds {rows : List (Fin 7 → α)} {r : Fin 7 → α} (h : r ∈ rows) :
    0 ≤ dotScore rows r ∧ dotScore rows r ≤ 1000 := by
  have hs : ∀ i : Fin 7, 0 ≤ scaleVal (rows.map (fun q => q i)) (r i) ∧
      scaleVal (rows.map (fun q => q i)) (r i) ≤ 1 := by
    intro i
    exact scaleVal_mem_Icc (List.mem_map_of_mem (fun q => q i) h)
  unfold dotScore
  constructor
  · apply mul_nonneg _ (by norm_num)
    apply Finset.sum_nonneg
    intro i _
    exact mul_nonneg (hs i).1 (weights_nonneg i)
  · have hle : ∑ i : Fin 7, scaleVal (rows.map (fun q => q i)) (r i) * weights i
        ≤ ∑ i : Fin 7, (weights : Fin 7 → α) i := by
      apply Finset.sum_le_sum
      intro i _
      calc scaleVal (rows.map (fun q => q i)) (r i) * weights i
          ≤ 1 * weights i := mul_le_mul_of_nonneg_right (hs i).2 (weights_nonneg i)
      _ = weights i := one_mul _
    have hle2 : ∑ i : Fin 7, scaleVal (rows.map (fun q => q i)) (r i) * weights i ≤ 1 :=
      le_trans hle (le_of_eq weights_sum)
    calc (∑ i : Fin 7, scaleVal (rows.map (fun q => q i)) (r i) * weights i) * 1000
        ≤ 1 * 1000 := mul_le_mul_of_nonneg_right hle2 (by norm_num)
    _ = 1000 := one_mul _

theorem scoreRows_liq_mono {others : List (Fin 7 → α)} {f : Fin 7 → α} {n m : ℕ}
    (h : n ≤ m) :
    scoreRows (setLiq f m :: others) (setLiq f m)
      ≤ scoreRows (setLiq f n :: others) (setLiq f n) := by
  apply round2_mono
  unfold dotScore
  apply mul_le_mul_of_nonneg_right _ (by norm_num)
  apply Finset.sum_le_sum
  intro i _
  by_cases hi : i = 6
  · subst hi
    apply mul_le_mul_of_nonneg_right _ (weights_nonneg 6)
    have e1 : setLiq f m 6 = -(m : α) := Function.update_same 6 _ f
    have e2 : setLiq f n 6 = -(n : α) := Function.update_same 6 _ f
    have c1 : (setLiq f m :: others).map (fun q => q 6)
        = -(m : α) :: others.map (fun q => q 6) := by
      rw [List.map_cons, e1]
    have c2 : (setLiq f n :: others).map (fun q => q 6)
        = -(n : α) :: others.map (fun q => q 6) := by
      rw [List.map_cons, e2]
    rw [c1, c2, e1, e2]
    exact scaleVal_head_mono (neg_le_neg (by exact_mod_cast h))
  · have e1 : setLiq f m i = f i := Function.update_noteq hi _ f
    have e2 : setLiq f n i = f i := Function.update_noteq hi _ f
    have c1 : (setLiq f m :: others).map (fun q => q i)
        = f i :: others.map (fun q => q i) := by
      rw [List.map_cons, e1]
    have c2 : (setLiq f n :: others).map (fun q => q i)
        = f i :: others.map (fun q => q i) := by
      rw [List.map_cons, e2]
    rw [c1, c2, e1, e2]

theorem dotScore_liq_strict {others : List (Fin 7 → α)} {f : Fin 7 → α} :
    dotScore (setLiq f 1 :: setLiq f 0 :: others) (setLiq f 1)
      < dotScore (setLiq f 1 :: setLiq f 0 :: others) (setLiq f 0) := by
  have e1 : setLiq f 1 6 = -(1 : α) := by
    rw [show setLiq f 1 6 = -((1 : ℕ) : α) from Function.update_same 6 _ f]
    norm_num
  have e0 : setLiq f 0 6 = (0 : α) := by
    rw [show setLiq f 0 6 = -((0 : ℕ) : α) from Function.update_same 6 _ f]
    norm_num
  have hcol : (setLiq f 1 :: setLiq f 0 :: others).map (fun q => q 6)
      = -(1 : α) :: (0 : α) :: others.map (fun q => q 6) := by
    rw [List.map_cons, List.map_cons, e1, e0]
  have hm : minD ((setLiq f 1 :: setLiq f 0 :: others).map (fun q => q 6)) ≤ -1 := by
    rw [hcol]
    exact minD_le_of_mem (List.mem_cons_self _ _)
  have hM : (0 : α) ≤ maxD ((setLiq f 1 :: setLiq f 0 :: others).map (fun q => q 6)) := by
    rw [hcol]
    exact le_maxD_of_mem (List.mem_cons_of_mem _ (List.mem_cons_self _ _))
  have hd : 0 < maxD ((setLiq f 1 :: setLiq f 0 :: others).map (fun q => q 6))
      - minD ((setLiq f 1 :: setLiq f 0 :: others).map (fun q => q 6)) := by
    linarith
  have hne : maxD ((setLiq f 1 :: setLiq f 0 :: others).map (fun q => q 6))
      ≠ minD ((setLiq f 1 :: setLiq f 0 :: others).map (fun q => q 6)) :=
    ne_of_gt (by linarith)
  have key : scaleVal ((setLiq f 1 :: setLiq f 0 :: others).map (fun q => q 6))
        (setLiq f 1 6) * (weights : Fin 7 → α) 6
      < scaleVal ((setLiq f 1 :: setLiq f 0 :: others).map (fun q => q 6))
        (setLiq f 0 6) * (weights : Fin 7 → α) 6 := by
    apply mul_lt_mul_of_pos_right _ (by rw [weights_apply_6]; norm_num)
    rw [e1, e0]
    unfold scaleVal
    rw [if_neg hne]
    rw [div_lt_div_iff_of_pos_right hd]
    linarith
  unfold dotScore
  apply mul_lt_mul_of_pos_right _ (by norm_num : (0 : α) < 1000)
  apply Finset.sum_lt_sum
  · intro i _
    by_cases hi : i = 6
    · subst hi
      exact le_of_lt key
    · have q1 : setLiq f 1 i = f i := Function.update_noteq hi _ f
      have q0 : setLiq f 0 i = f i := Function.update_noteq hi _ f
      rw [q1, q0]
  · exact ⟨6, Finset.mem_univ _, key⟩

end RoundLemmas

/-- C1: for every wallet row of the final summary, the credit score lies
in the interval [0, 1000], and it is the dot product of the seven
min-max scaled features with the fixed weight vector, multiplied by
1000 and rounded to two decimal places. -/
theorem credit_score_in_range (evs : List Event) (w : String)
    (h : w ∈ walletKeys evs) :
    0 ≤ credit_score evs w ∧ credit_score evs w ≤ 1000 ∧
    credit_score evs w = round2 ((∑ i : Fin 7,
      scaleVal ((featureRows evs).map (fun q => q i)) (featVal evs w i)
        * weights i) * 1000) := by
  have hmem : featVal evs w ∈ featureRows evs := List.mem_map_of_mem _ h
  have hb := dotScore_bounds hmem
  have h2 := round2_bounds hb.1 hb.2
  exact ⟨h2.1, h2.2, rfl⟩

/-- Witness for C1 on a concrete one-deposit run. -/
theorem credit_score_in_range_witness :
    0 ≤ credit_score evDeposit "w" ∧ credit_score evDeposit "w" ≤ 1000 :=
  ⟨(credit_score_in_range evDeposit "w" (by decide)).1,
   (credit_score_in_range evDeposit "w" (by decide)).2.1⟩

/-- C2: `repayment_ratio` is repaid/borrowed when the borrowed total is
positive, and the sentinel 1.0 when the borrowed total is zero. -/
theorem repayment_ratio_policy (evs : List Event) (w : String) :
    (0 < total_usd_borrowed evs w →
      repayment_ratio evs w
        = total_usd_repaid evs w / total_usd_borrowed evs w) ∧
    (total_usd_borrowed evs w = 0 → repayment_ratio evs w = 1) := by
  constructor
  · intro h
    rw [repayment_ratio, if_pos h]
  · intro h
    rw [repayment_ratio, if_neg (by rw [h]; exact lt_irrefl 0)]

/-- Witness for C2: a wallet that borrowed 2 and repaid 1, and a wallet
that never borrowed. -/
theorem repayment_ratio_policy_witness :
    repayment_ratio evBorrow "w"
      = total_usd_repaid evBorrow "w" / total_usd_borrowed evBorrow "w" ∧
    repayment_ratio evDeposit "w" = 1 :=
  ⟨(repayment_ratio_policy evBorrow "w").1
      (by simp [total_usd_borrowed, total_usd, evBorrow, List.filter_cons, List.filter_nil]),
   (repayment_ratio_policy evDeposit "w").2
      (by simp [total_usd_borrowed, total_usd, evDeposit, List.filter_cons, List.filter_nil])⟩

/-- C3: a feature column whose population maximum equals its minimum
min-max scales every population value to 0, and on a population of
exactly one wallet every scaled feature of that wallet is 0. -/
theorem minmax_zero_variance :
    (∀ (col : List ℝ) (v : ℝ), maxD col = minD col → v ∈ col →
      scaleVal col v = 0) ∧
    (∀ (evs : List Event) (w : String), walletKeys evs = [w] →
      ∀ i : Fin 7,
        scaleVal ((featureRows evs).map (fun q => q i)) (featVal evs w i) = 0) := by
  have hgen : ∀ (col : List ℝ) (v : ℝ), maxD col = minD col → v ∈ col →
      scaleVal col v = 0 := by
    intro col v hmm hv
    have h1 : minD col ≤ v := minD_le_of_mem hv
    have h2 : v ≤ maxD col := le_maxD_of_mem hv
    have hveq : v = minD col := le_antisymm (hmm ▸ h2) h1
    unfold scaleVal
    rw [if_pos hmm, hveq]
    simp
  refine ⟨hgen, ?_⟩
  intro evs w hkeys i
  apply hgen
  · simp [featureRows, hkeys, maxD, minD]
  · simp [featureRows, hkeys]

/-- Witness for C3: a singleton column, and the one-wallet run. -/
theorem minmax_zero_variance_witness :
    scaleVal [(5 : ℝ)] 5 = 0 ∧
    scaleVal ((featureRows evDeposit).map (fun q => q 0))
      (featVal evDeposit "w" 0) = 0 :=
  ⟨minmax_zero_variance.1 [5] 5 rfl (by simp),
   minmax_zero_variance.2 evDeposit "w" (by decide) 0⟩

/-- C4: the summary's wallet set is exactly the set of wallets having at
least one deposit, borrow, repay or redeemunderlying event; a wallet
all of whose events are liquidation calls never appears. -/
theorem summary_wallet_set (evs : List Event) (w : String) :
    (w ∈ walletKeys evs
      ↔ ∃ e ∈ evs, e.wallet = w ∧ e.action ∈ relevant_actions) ∧
    ((∀ e ∈ evs, e.wallet = w → e.action = "liquidationcall") →
      w ∉ walletKeys evs) := by
  refine ⟨mem_walletKeys, ?_⟩
  intro hall hmem
  rcases mem_walletKeys.mp hmem with ⟨e, he, hw, ha⟩
  rw [hall e he hw] at ha
  exact absurd ha (by decide)

/-- Witness for C4: a wallet that only appears in a liquidation call is
not a summary row. -/
theorem summary_wallet_set_witness : "w" ∉ walletKeys evLiqOnly :=
  (summary_wallet_set evLiqOnly "w").2 (by decide)

/-- C5 counterexample: a wallet whose only event is a deposit with an
unparseable timestamp is a summary row with `active_days = 0`, refuting
the claim that every summary row has `active_days ≥ 1` for every input,
including inputs with unparseable timestamps. -/
theorem active_days_zero_cex :
    "w" ∈ walletKeys evNoDate ∧ active_days evNoDate "w" = 0 := by
  decide

/-- C5 (amended): every summary wallet has `tx_count ≥ 1`; and it has
`active_days ≥ 1` provided at least one of its events has a parseable
timestamp (otherwise `active_days` can be 0). -/
theorem tx_count_pos_active_days (evs : List Event) (w : String)
    (h : w ∈ walletKeys evs) :
    1 ≤ tx_count evs w ∧
    ((∃ e ∈ evs, e.wallet = w ∧ e.timestamp ≠ none) →
      1 ≤ active_days evs w) := by
  constructor
  · rcases mem_walletKeys.mp h with ⟨e, he, hw, _⟩
    have hmf : e ∈ evs.filter (fun e => e.wallet = w) :=
      List.mem_filter.mpr ⟨he, by simp [hw]⟩
    unfold tx_count
    exact List.length_pos.mpr (List.ne_nil_of_mem hmf)
  · rintro ⟨e, he, hw, ht⟩
    obtain ⟨t, ht2⟩ := Option.ne_none_iff_exists.mp ht
    have hmf : e ∈ evs.filter (fun e => e.wallet = w) :=
      List.mem_filter.mpr ⟨he, by simp [hw]⟩
    have hdm : Int.fdiv t 86400
        ∈ (evs.filter (fun e => e.wallet = w)).filterMap event_date :=
      List.mem_filterMap.mpr ⟨e, hmf, by rw [event_date, ← ht2]; rfl⟩
    have hdd : Int.fdiv t 86400
        ∈ ((evs.filter (fun e => e.wallet = w)).filterMap event_date).dedup :=
      List.mem_dedup.mpr hdm
    unfold active_days
    exact List.length_pos.mpr (List.ne_nil_of_mem hdd)

/-- Witness for the amended C5 on a concrete dated deposit. -/
theorem tx_count_pos_active_days_witness :
    1 ≤ tx_count evDated "w" ∧ 1 ≤ active_days evDated "w" :=
  ⟨(tx_count_pos_active_days evDated "w" (by decide)).1,
   (tx_count_pos_active_days evDated "w" (by decide)).2 (by decide)⟩

/-- C6 (amended): holding the other six feature values fixed across the
population, increasing a wallet's liquidation count never increases its
rounded credit score; and for two wallets with otherwise-identical
feature values and 1 versus 0 liquidations, the liquidated wallet's
unrounded score is strictly lower (the rounded `credit_score` need only
be lower or equal, see the counterexample). -/
theorem liquidation_monotone :
    (∀ (others : List (Fin 7 → ℝ)) (f : Fin 7 → ℝ) (n m : ℕ), n ≤ m →
      scoreRows (setLiq f m :: others) (setLiq f m)
        ≤ scoreRows (setLiq f n :: others) (setLiq f n)) ∧
    (∀ (others : List (Fin 7 → ℝ)) (f : Fin 7 → ℝ),
      dotScore (setLiq f 1 :: setLiq f 0 :: others) (setLiq f 1)
        < dotScore (setLiq f 1 :: setLiq f 0 :: others) (setLiq f 0)) :=
  ⟨fun _ _ _ _ h => scoreRows_liq_mono h, fun _ _ => dotScore_liq_strict⟩

/-- Witness for C6 on concrete one- and two-row populations. -/
theorem liquidation_monotone_witness :
    scoreRows [setLiq zeroRow 1] (setLiq zeroRow 1)
      ≤ scoreRows [setLiq zeroRow 0] (setLiq zeroRow 0) ∧
    dotScore [setLiq zeroRow 1, setLiq zeroRow 0] (setLiq zeroRow 1)
      < dotScore [setLiq zeroRow 1, setLiq zeroRow 0] (setLiq zeroRow 0) :=
  ⟨liquidation_monotone.1 [] zeroRow 0 1 (by norm_num),
   liquidation_monotone.2 [] zeroRow⟩

/-- C6 counterexample: in a population of three wallets with identical
other feature values and 1, 0 and 50000 liquidations, the wallet with 1
liquidation gets exactly the same rounded `credit_score` (200.00) as
the wallet with 0 liquidations: rounding to two decimals collapses the
strict gap, refuting the claim that the liquidated wallet's
`credit_score` is strictly lower. -/
theorem liquidation_strict_cex :
    scoreRows cexPop (setLiq zeroRow 1) = scoreRows cexPop (setLiq zeroRow 0) := by
  have hupd6 : ∀ n : ℕ, setLiq zeroRow n 6 = -(n : ℝ) :=
    fun n => Function.update_same 6 _ zeroRow
  have hupdi : ∀ (n : ℕ) (i : Fin 7), i ≠ 6 → setLiq zeroRow n i = 0 :=
    fun n i hi => Function.update_noteq hi _ zeroRow
  have hcoli : ∀ i : Fin 7, i ≠ 6 → cexPop.map (fun q => q i) = [0, 0, 0] := by
    intro i hi
    simp [cexPop, hupdi 1 i hi, hupdi 0 i hi, hupdi 50000 i hi]
  have hcol6 : cexPop.map (fun q => q 6) = [-1, 0, -50000] := by
    have h1 := hupd6 1
    have h0 := hupd6 0
    have h5 := hupd6 50000
    norm_num at h1 h0 h5
    simp [cexPop, h1, h0, h5]
  have hscale0 : scaleVal ([0, 0, 0] : List ℝ) 0 = 0 := by
    norm_num [scaleVal, minD, maxD]
  have hm6 : minD ([-1, 0, -50000] : List ℝ) = -50000 := by
    norm_num [minD, min_def]
  have hM6 : maxD ([-1, 0, -50000] : List ℝ) = 0 := by
    norm_num [maxD, max_def]
  have hsA : scaleVal ([-1, 0, -50000] : List ℝ) (-1) = 49999 / 50000 := by
    rw [scaleVal, hm6, hM6, if_neg (by norm_num : (0 : ℝ) ≠ -50000)]
    norm_num
  have hsB : scaleVal ([-1, 0, -50000] : List ℝ) 0 = 1 := by
    rw [scaleVal, hm6, hM6, if_neg (by norm_num : (0 : ℝ) ≠ -50000)]
    norm_num
  have hdA : dotScore cexPop (setLiq zeroRow 1) = 49999 / 250 := by
    rw [dotScore, Fin.sum_univ_seven,
      hcoli 0 (by decide), hcoli 1 (by decide), hcoli 2 (by decide),
      hcoli 3 (by decide), hcoli 4 (by decide), hcoli 5 (by decide), hcol6,
      hupdi 1 0 (by decide), hupdi 1 1 (by decide), hupdi 1 2 (by decide),
      hupdi 1 3 (by decide), hupdi 1 4 (by decide), hupdi 1 5 (by decide),
      hupd6 1, Nat.cast_one, hscale0, hsA,
      weights_apply_0, weights_apply_1, weights_apply_2, weights_apply_3,
      weights_apply_4, weights_apply_5, weights_apply_6]
    norm_num
  have hdB : dotScore cexPop (setLiq zeroRow 0) = 200 := by
    rw [dotScore, Fin.sum_univ_seven,
      hcoli 0 (by decide), hcoli 1 (by decide), hcoli 2 (by decide),
      hcoli 3 (by decide), hcoli 4 (by decide), hcoli 5 (by decide), hcol6,
      hupdi 0 0 (by decide), hupdi 0 1 (by decide), hupdi 0 2 (by decide),
      hupdi 0 3 (by decide), hupdi 0 4 (by decide), hupdi 0 5 (by decide),
      hupd6 0, Nat.cast_zero, neg_zero, hscale0, hsB,
      weights_apply_0, weights_apply_1, weights_apply_2, weights_apply_3,
      weights_apply_4, weights_apply_5, weights_apply_6]
    norm_num
  have hr1 : round2 ((49999 / 250 : ℝ)) = 200 := by
    rw [round2]
    have hfl : ⌊(49999 / 250 : ℝ) * 100⌋ = 19999 := by
      rw [Int.floor_eq_iff]
      constructor <;> norm_num
    have hfr : Int.fract ((49999 / 250 : ℝ) * 100) ≠ 1 / 2 := by
      rw [Int.fract, hfl]
      norm_num
    have hfl2 : ⌊(49999 / 250 : ℝ) * 100 + 1 / 2⌋ = 20000 := by
      rw [Int.floor_eq_iff]
      constructor <;> norm_num
    rw [roundHE, if_neg hfr, round_eq, hfl2]
    norm_num
  have hr2 : round2 ((200 : ℝ)) = 200 := by
    rw [round2]
    have he : (200 : ℝ) * 100 = ((20000 : ℤ) : ℝ) := by norm_num
    rw [he, roundHE, Int.fract_intCast,
      if_neg (by norm_num : ¬((0 : ℝ) = 1 / 2)), round_intCast]
    norm_num
  rw [scoreRows, scoreRows, hdA, hdB, hr1, hr2]

/-- C7: a record whose amount or price failed numeric parsing has an
undefined usd value, which contributes exactly 0 to every wallet/action
USD total; normalization never drops a record. -/
theorem undefined_usd_contributes_zero (r : RawEvent)
    (h : r.amount = none ∨ r.assetPriceUSD = none) :
    (normalize r).usd_value = none ∧
    (∀ (evs : List Event) (a w : String),
      total_usd (normalize r :: evs) a w = total_usd evs a w) ∧
    (∀ rs : List RawEvent, (normalizeAll rs).length = rs.length) := by
  have hnone : (normalize r).usd_value = none := by
    unfold normalize
    rcases h with h | h
    · rw [h]
    · rw [h]
      cases r.amount <;> rfl
  refine ⟨hnone, ?_, fun rs => by simp [normalizeAll]⟩
  intro evs a w
  unfold total_usd
  by_cases hc : ((normalize r).wallet = w ∧ (normalize r).action = a)
  · rw [List.filter_cons, if_pos (by simpa using hc), List.map_cons,
      List.sum_cons, hnone]
    simp
  · rw [List.filter_cons, if_neg (by simpa using hc)]

/-- Witness for C7 on a concrete record with an unparseable amount. -/
theorem undefined_usd_contributes_zero_witness :
    (normalize rawNaN).usd_value = none ∧
    total_usd [normalize rawNaN] "deposit" "w" = total_usd [] "deposit" "w" :=
  ⟨(undefined_usd_contributes_zero rawNaN (Or.inl rfl)).1,
   (undefined_usd_contributes_zero rawNaN (Or.inl rfl)).2.1 [] "deposit" "w"⟩

/-- C8 counterexample: with a deposit of 1 USD and a borrow whose summed
usd value is -1, `borrow_inverse` is 2, outside [0, 1], refuting the
claim that `borrow_inverse` lies in [0, 1] for every wallet. -/
theorem borrow_inverse_gt_one_cex : borrow_inverse evNegBorrow "w" = 2 := by
  have hd : total_usd_deposited evNegBorrow "w" = 1 := by
    simp [total_usd_deposited, total_usd, evNegBorrow, List.filter_cons, List.filter_nil]
  have hb : total_usd_borrowed evNegBorrow "w" = -1 := by
    simp [total_usd_borrowed, total_usd, evNegBorrow, List.filter_cons, List.filter_nil]
  rw [borrow_inverse, borrow_to_deposit, hd, hb, if_pos (by norm_num)]
  norm_num [min_def]

/-- C8 (amended): `borrow_to_deposit` is borrowed/deposited when the
deposited total is positive and 0 otherwise; `borrow_inverse` is
`1 - min(borrow_to_deposit, 1)`, is always ≥ 0, and is ≤ 1 whenever the
borrowed total is nonnegative (it exceeds 1 when the borrowed total is
negative, see the counterexample). -/
theorem borrow_ratio_bounds (evs : List Event) (w : String) :
    (0 < total_usd_deposited evs w →
      borrow_to_deposit evs w
        = total_usd_borrowed evs w / total_usd_deposited evs w) ∧
    (¬ 0 < total_usd_deposited evs w → borrow_to_deposit evs w = 0) ∧
    borrow_inverse evs w = 1 - min (borrow_to_deposit evs w) 1 ∧
    0 ≤ borrow_inverse evs w ∧
    (0 ≤ total_usd_borrowed evs w → borrow_inverse evs w ≤ 1) := by
  refine ⟨fun h => by rw [borrow_to_deposit, if_pos h],
          fun h => by rw [borrow_to_deposit, if_neg h], rfl, ?_, ?_⟩
  · rw [borrow_inverse]
    have h1 : min (borrow_to_deposit evs w) 1 ≤ 1 := min_le_right _ _
    linarith
  · intro h
    rw [borrow_inverse]
    have hbtd : 0 ≤ borrow_to_deposit evs w := by
      rw [borrow_to_deposit]
      split
      · next hp => exact div_nonneg h (le_of_lt hp)
      · exact le_refl 0
    have h2 : 0 ≤ min (borrow_to_deposit evs w) 1 := le_min hbtd (by norm_num)
    linarith

/-- Witness for the amended C8 on a concrete one-deposit run. -/
theorem borrow_ratio_bounds_witness :
    borrow_to_deposit evDeposit "w"
      = total_usd_borrowed evDeposit "w" / total_usd_deposited evDeposit "w" ∧
    borrow_inverse evDeposit "w" ≤ 1 :=
  ⟨(borrow_ratio_bounds evDeposit "w").1
      (by simp [total_usd_deposited, total_usd, evDeposit, List.filter_cons, List.filter_nil]),
   (borrow_ratio_bounds evDeposit "w").2.2.2.2
      (by simp [total_usd_borrowed, total_usd, evDeposit, List.filter_cons, List.filter_nil])⟩

/-- C9: the rows of the summary, and hence of the two-column output, are
in strictly ascending wallet order, for every input. -/
theorem output_sorted_by_wallet (evs : List Event) :
    ((wallet_scores evs).map Prod.fst).Pairwise (· < ·) ∧
    (wallet_scores evs).map Prod.fst = walletKeys evs := by
  have hmap : (wallet_scores evs).map Prod.fst = walletKeys evs := by
    rw [wallet_scores, List.map_map]
    exact List.map_id _
  constructor
  · rw [hmap, walletKeys]
    exact pairwise_foldl_insertKey List.Pairwise.nil
  · exact hmap

/-- C10: the empty string counts as one distinct asset symbol: a wallet
whose events all carry the empty symbol has `asset_diversity = 1`, and
a wallet with events under exactly the symbols "A" and "" has
`asset_diversity = 2`. -/
theorem asset_diversity_counts_empty (evs : List Event) (w : String) :
    ((∃ e ∈ evs, e.wallet = w) →
     (∀ e ∈ evs, e.wallet = w → e.asset_symbol = "") →
      asset_diversity evs w = 1) ∧
    ((∃ e ∈ evs, e.wallet = w ∧ e.asset_symbol = "A") →
     (∃ e ∈ evs, e.wallet = w ∧ e.asset_symbol = "") →
     (∀ e ∈ evs, e.wallet = w → e.asset_symbol = "A" ∨ e.asset_symbol = "") →
      asset_diversity evs w = 2) := by
  constructor
  · rintro ⟨e, he, hw⟩ hall
    unfold asset_diversity
    rw [← List.card_toFinset]
    have hfin : ((evs.filter (fun e => e.wallet = w)).map
        Event.asset_symbol).toFinset = {""} := by
      apply Finset.ext
      intro s
      simp only [List.mem_toFinset, List.mem_map, List.mem_filter,
        Finset.mem_singleton, decide_eq_true_eq]
      constructor
      · rintro ⟨e2, ⟨he2, hw2⟩, rfl⟩
        exact hall e2 he2 hw2
      · rintro rfl
        exact ⟨e, ⟨he, hw⟩, hall e he hw⟩
    rw [hfin]
    rfl
  · rintro ⟨eA, heA, hwA, hsA⟩ ⟨eE, heE, hwE, hsE⟩ hall
    unfold asset_diversity
    rw [← List.card_toFinset]
    have hfin : ((evs.filter (fun e => e.wallet = w)).map
        Event.asset_symbol).toFinset = {"A", ""} := by
      apply Finset.ext
      intro s
      simp only [List.mem_toFinset, List.mem_map, List.mem_filter,
        Finset.mem_insert, Finset.mem_singleton, decide_eq_true_eq]
      constructor
      · rintro ⟨e2, ⟨he2, hw2⟩, rfl⟩
        exact hall e2 he2 hw2
      · rintro (rfl | rfl)
        · exact ⟨eA, ⟨heA, hwA⟩, hsA⟩
        · exact ⟨eE, ⟨heE, hwE⟩, hsE⟩
    rw [hfin]
    rfl

/-- Witness for C10 on concrete runs with empty and mixed symbols. -/
theorem asset_diversity_counts_empty_witness :
    asset_diversity evNoDate "w" = 1 ∧ asset_diversity evTwoSymbols "w" = 2 :=
  ⟨(asset_diversity_counts_empty evNoDate "w").1 (by decide) (by decide),
   (asset_diversity_counts_empty evTwoSymbols "w").2
      (by decide) (by decide) (by decide)⟩

end Scorer
